import Mathlib

/-!
Verification of the leaderboard ranking engine (Go, redis-backed).

The Go program stores, per player, a single float64 "combined score"
`float64(newScore*scoreMultiplier + (maxTimestampReversed - timestamp))`
in a redis sorted set (ZSET), where `scoreMultiplier = maxTimestampReversed = 1e12`,
and decodes the raw score back with `int64(combinedScore / scoreMultiplier)`.

We embed the program shallowly:
* int64 arithmetic is `ℤ` with an explicit wrap at `2^64` (`wrap64`);
* float64 values are `ℚ`; every float64 operation result is modelled by
  `floatRound`, round-to-nearest over the binary64 grid (53-bit mantissa);
* the ZSET is an association list `List (String × ℚ)`; the ordered queries
  sort it on demand by (score descending, member descending), which is the
  order redis ZREV* commands use.
-/

/-- The Go constant `scoreMultiplier = 1e12` (an exact integer). -/
def scoreMultiplier : ℤ := 1000000000000

/-- The Go constant `maxTimestampReversed = 1e12` (an exact integer).
Note it is EQUAL to `scoreMultiplier`, not smaller. -/
def maxTimestampReversed : ℤ := 1000000000000

/-- Two's-complement wrap of an integer into `[-2^63, 2^63)`: the value a chain
of Go `int64` operations produces.  Since wrapping is a ring homomorphism
`ℤ → ℤ/2^64`, wrapping once at the end equals wrapping every intermediate
Go operation. -/
def wrap64 (x : ℤ) : ℤ := (x + 2 ^ 63) % 2 ^ 64 - 2 ^ 63

/-- Go's `int64(f)` conversion for a float64 `f`: truncation toward zero.
(Go leaves out-of-`int64`-range conversions unspecified; no claim reaches
that range.) -/
def i64trunc (q : ℚ) : ℤ := if q < 0 then -⌊-q⌋ else ⌊q⌋

/-- Round a positive rational to the IEEE-754 binary64 grid: with
`E = ⌊log₂ q⌋`, the representable neighbours are the integer multiples of
`2 ^ (E - 52)` (53-bit mantissa, normal range).  `round` breaks exact ties
upward while IEEE breaks them to even; no exact tie is reachable in the
uses below except where explicitly checked (see `floatRound_key9008`, where
the upward neighbour is the even one, so the two rules agree). -/
def posRound (q : ℚ) : ℚ :=
  (round (q / 2 ^ (Int.log 2 q - 52)) : ℚ) * 2 ^ (Int.log 2 q - 52)

/-- The float64 rounding function: round-to-nearest on the binary64 grid,
extended to negative arguments by symmetry (IEEE rounding is odd).
Arguments are far from the subnormal/overflow thresholds in every use. -/
def floatRound (q : ℚ) : ℚ := if q < 0 then -posRound (-q) else posRound q

/-- The exact value of the Go int64 expression
`newScore*scoreMultiplier + (maxTimestampReversed - timestamp)`
(from `UpdateScore`), including the int64 wraparound. -/
def encodeKey (s t : ℤ) : ℤ := wrap64 (s * scoreMultiplier + (maxTimestampReversed - t))

/-- The mathematical combined key `rawScore * MULTIPLIER + (MAX_TIMESTAMP - timestamp)`
as the spec writes it (no wraparound); equals `encodeKey` inside the int64
range, see `encodeKey_eq_combinedKeyZ`. -/
def combinedKeyZ (s t : ℤ) : ℤ := s * scoreMultiplier + (maxTimestampReversed - t)

/-- The float64 combined score `UpdateScore` stores:
`float64(newScore*scoreMultiplier + (maxTimestampReversed - timestamp))`. -/
def combinedFloat (s t : ℤ) : ℚ := floatRound ((encodeKey s t : ℤ) : ℚ)

/-- The Go decode step `int64(combinedScore / scoreMultiplier)`: a correctly
rounded float64 division followed by truncation toward zero. -/
def decodeScore (x : ℚ) : ℤ := i64trunc (floatRound (x / (scoreMultiplier : ℚ)))

/-- Go struct `RankInfo {PlayerID string; Score int64; Rank int64}`. -/
structure RankInfo where
  PlayerID : String
  Score : ℤ
  Rank : ℤ
deriving Repr, DecidableEq

/-- The redis sorted set backing the leaderboard, as a member → float64-score
association list (member strings unique in any real ZSET state). -/
abbrev LbState := List (String × ℚ)

/-- Redis ZScore: the stored score of a member, if present (`redis.Nil` → `none`). -/
def zscore (st : LbState) (id : String) : Option ℚ :=
  (st.find? (fun e => e.1 = id)).map (fun e => e.2)

/-- Redis ZAdd: insert or replace the member's score. -/
def zadd (st : LbState) (id : String) (v : ℚ) : LbState :=
  st.filter (fun e => ¬ e.1 = id) ++ [(id, v)]

/-- The descending view order used by the ZREV* commands: score descending,
ties broken by member string descending (redis orders equal-score members
lexicographically, so the reversed view is reverse-lexicographic). -/
def keyOrder (a b : String × ℚ) : Prop :=
  b.2 < a.2 ∨ (a.2 = b.2 ∧ b.1 ≤ a.1)

instance : DecidableRel keyOrder := fun a b => by
  unfold keyOrder; infer_instance

/-- The ZSET in its descending view order. -/
def sortedL (st : LbState) : LbState := st.insertionSort keyOrder

/-- Redis ZRevRank: 0-based position of a member in the descending view. -/
def zrevrank (st : LbState) (id : String) : Option ℕ :=
  (sortedL st).findIdx? (fun e => e.1 = id)

/-- Redis ZRevRange with scores, `start`/`stop` as redis interprets them:
negative indexes count from the end (`-1` is the last element), then
`start` is clamped to `0`, the range is empty if `start > stop` or `start`
is past the population, and `stop` is clamped to the last element. -/
def zrevrange (st : LbState) (start stop : ℤ) : LbState :=
  let l := sortedL st
  let n : ℤ := l.length
  let s : ℤ := if start < 0 then max (n + start) 0 else start
  let e : ℤ := if stop < 0 then n + stop else stop
  if e < s ∨ n ≤ s then [] else (l.take (e.toNat + 1)).drop s.toNat

/-- Redis score-range bounds as `ZCOUNT` parses them: `-inf`, `+inf`, an
inclusive value, or an exclusive value `(v`. -/
inductive ZScoreBound where
  | negInf
  | posInf
  | incl (v : ℚ)
  | excl (v : ℚ)

/-- Whether a stored score satisfies the lower bound of a redis score
range.  Stored float64 scores are finite, so no score meets a `+inf`
lower bound. -/
def satisfiesMin : ZScoreBound → ℚ → Bool
  | ZScoreBound.negInf, _ => true
  | ZScoreBound.posInf, _ => false
  | ZScoreBound.incl v, s => decide (v ≤ s)
  | ZScoreBound.excl v, s => decide (v < s)

/-- Whether a stored score satisfies the upper bound of a redis score range. -/
def satisfiesMax : ZScoreBound → ℚ → Bool
  | ZScoreBound.negInf, _ => false
  | ZScoreBound.posInf, _ => true
  | ZScoreBound.incl v, s => decide (s ≤ v)
  | ZScoreBound.excl v, s => decide (s < v)

/-- Redis `ZCount(key, min, max)`: the number of members whose score
satisfies BOTH bounds of the parsed range.  A range whose bounds are
inverted (min above max) contains no member. -/
def zcountRange (st : LbState) (mn mx : ZScoreBound) : ℕ :=
  (st.filter (fun e => satisfiesMin mn e.2 && satisfiesMax mx e.2)).length

/-- The rank-labelling loops of `GetTopN` / `GetPlayerRankRange`: entry `i`
of the fetched window gets `Rank = startR + i` and the decoded score. -/
def labelFrom (startR : ℤ) : LbState → List RankInfo
  | [] => []
  | e :: rest => ⟨e.1, decodeScore e.2, startR⟩ :: labelFrom (startR + 1) rest

/-- `UpdateScore(playerID, incrScore, timestamp)`: read the old combined
score (0 if absent), decode, add the delta, re-encode with the new
timestamp, upsert.  The Go code performs NO validation of the new score or
the timestamp and can only fail on a redis transport error, which the model
does not produce. -/
def updateScore (st : LbState) (id : String) (incr t : ℤ) : LbState :=
  let oldCombined : ℚ := (zscore st id).getD 0
  let oldScore : ℤ := decodeScore oldCombined
  let newScore : ℤ := oldScore + incr
  zadd st id (floatRound ((encodeKey newScore t : ℤ) : ℚ))

/-- `GetPlayerRank(playerID)`: ZRevRank + ZScore, 1-based rank;
`none` models the "player not found" error. -/
def getPlayerRank (st : LbState) (id : String) : Option RankInfo :=
  match zrevrank st id with
  | none => none
  | some rank =>
    match zscore st id with
    | none => none
    | some cs => some ⟨id, decodeScore cs, (rank : ℤ) + 1⟩

/-- `GetTopN(n)`: `ZRevRangeWithScores(0, n-1)` with ranks `i+1`. -/
def getTopN (st : LbState) (n : ℤ) : List RankInfo :=
  labelFrom 1 (zrevrange st 0 (n - 1))

/-- `GetPlayerRankDense(playerID)`: the player's stored combined score, and
`denseRank = ZCount(key, "+inf", "(combinedScore") + 1`.  Note the argument
order of the go-redis call `ZCount(ctx, key, min, max)`: the code passes
`"+inf"` as the range's MIN and the exclusive combined score (printed with
`fmt.Sprintf("(%f", ...)`) as its MAX — there is no `ZRevCount` command
that would swap them — so the counted range is inverted and empty. -/
def getPlayerRankDense (st : LbState) (id : String) : Option RankInfo :=
  match zscore st id with
  | none => none
  | some cs => some ⟨id, decodeScore cs,
      (zcountRange st ZScoreBound.posInf (ZScoreBound.excl cs) : ℤ) + 1⟩

/-- The dense-ranking loop of `GetTopNDense` over the fetched window: the
rank counter increments when the decoded score strictly drops, and the loop
stops (emitting nothing further) once `limit > 0` and the counter exceeds
`limit`. -/
def denseLoop : LbState → ℤ → ℤ → ℤ → List RankInfo
  | [], _, _, _ => []
  | e :: rest, prev, rank, limit =>
    let cur := decodeScore e.2
    let rank' := if cur < prev then rank + 1 else rank
    if 0 < limit ∧ limit < rank' then []
    else ⟨e.1, cur, rank'⟩ :: denseLoop rest cur rank' limit

/-- `GetTopNDense(limit)`: fetches the HARDCODED window
`ZRevRangeWithScores(0, 99)` (at most 100 entries), emits the first entry
with rank 1, then runs the dense-ranking loop. -/
def getTopNDense (st : LbState) (limit : ℤ) : List RankInfo :=
  match zrevrange st 0 99 with
  | [] => []
  | e :: rest => ⟨e.1, decodeScore e.2, 1⟩ :: denseLoop rest (decodeScore e.2) 1 limit

/-- `GetPlayerRankRange(playerID, nRange)`: from the player's 1-based rank,
`startRank = rank - nRange/2` (Go division truncates toward zero, hence
`Int.tdiv`) clamped up to 1, `endRank = startRank + nRange - 1`, then
`ZRevRangeWithScores(startRank-1, endRank-1)` relabelled from `startRank`. -/
def getPlayerRankRange (st : LbState) (id : String) (nRange : ℤ) : Option (List RankInfo) :=
  match getPlayerRank st id with
  | none => none
  | some info =>
    let startRank := max (info.Rank - Int.tdiv nRange 2) 1
    let endRank := startRank + nRange - 1
    some (labelFrom startRank (zrevrange st (startRank - 1) (endRank - 1)))

/-! ### Arithmetic facts about the numeric model -/

lemma wrap64_eq_of_range (x : ℤ) (h1 : -2 ^ 63 ≤ x) (h2 : x < 2 ^ 63) : wrap64 x = x := by
  unfold wrap64
  have : (x + 2 ^ 63) % 2 ^ 64 = x + 2 ^ 63 := Int.emod_eq_of_lt (by linarith) (by linarith)
  omega

lemma two_cast_q : ((2 : ℕ) : ℚ) = (2 : ℚ) := by norm_num

lemma le_log2_of_zpow_le {q : ℚ} (hq : 0 < q) {n : ℤ} (h : (2 : ℚ) ^ n ≤ q) :
    n ≤ Int.log 2 q := by
  have := (Int.zpow_le_iff_le_log (R := ℚ) (b := 2) (by norm_num) hq (x := n)).mp
  rw [two_cast_q] at this
  exact this h

lemma log2_lt_of_lt_zpow {q : ℚ} (hq : 0 < q) {n : ℤ} (h : q < (2 : ℚ) ^ n) :
    Int.log 2 q < n := by
  have := (Int.lt_zpow_iff_log_lt (R := ℚ) (b := 2) (by norm_num) hq (x := n)).mp
  rw [two_cast_q] at this
  exact this h

lemma zpow_log2_le {q : ℚ} (hq : 0 < q) : (2 : ℚ) ^ Int.log 2 q ≤ q := by
  have := Int.zpow_log_le_self (R := ℚ) (b := 2) (by norm_num) hq
  rwa [two_cast_q] at this

lemma lt_zpow_log2_succ (q : ℚ) : q < (2 : ℚ) ^ (Int.log 2 q + 1) := by
  have := Int.lt_zpow_succ_log_self (R := ℚ) (b := 2) (by norm_num) q
  rwa [two_cast_q] at this

lemma posRound_zero : posRound 0 = 0 := by
  unfold posRound
  simp

lemma posRound_of_eq_int_mul {q : ℚ} (m e : ℤ) (he : Int.log 2 q - 52 = e)
    (h : q = (m : ℚ) * 2 ^ e) : posRound q = q := by
  unfold posRound
  rw [he]
  conv_lhs => rw [h]
  rw [mul_div_assoc, div_self (zpow_ne_zero _ (by norm_num : (2 : ℚ) ≠ 0)), mul_one,
    round_intCast]
  exact h.symm

lemma posRound_intCast (k : ℤ) (h0 : 0 ≤ k) (h : k ≤ 2 ^ 53) : posRound (k : ℚ) = k := by
  rcases eq_or_lt_of_le h0 with h0 | h0
  · rw [← h0]
    exact_mod_cast posRound_zero
  have hk1 : (1 : ℚ) ≤ (k : ℚ) := by exact_mod_cast h0
  have hkpos : (0 : ℚ) < (k : ℚ) := by linarith
  set E := Int.log 2 ((k : ℚ)) with hE
  have hE0 : 0 ≤ E := le_log2_of_zpow_le hkpos (by simpa using hk1)
  rcases le_or_lt E 52 with hE52 | hE52
  · apply posRound_of_eq_int_mul (k * 2 ^ (52 - E).toNat) (E - 52) (by rw [← hE])
    have hnat : ((52 - E).toNat : ℤ) = 52 - E := Int.toNat_of_nonneg (by omega)
    push_cast
    rw [mul_assoc, ← zpow_natCast (2 : ℚ) (52 - E).toNat, ← zpow_add₀
      (by norm_num : (2 : ℚ) ≠ 0), hnat]
    norm_num
  · -- E ≥ 53 forces k = 2^53
    have hup : (2 : ℚ) ^ (53 : ℤ) ≤ (k : ℚ) := by
      calc (2 : ℚ) ^ (53 : ℤ) ≤ (2 : ℚ) ^ E := zpow_le_zpow_right₀ (by norm_num) (by omega)
      _ ≤ (k : ℚ) := zpow_log2_le hkpos
    have hk53 : k = 2 ^ 53 := by
      have h1 : ((2 ^ 53 : ℤ) : ℚ) ≤ (k : ℚ) := by
        rw [show ((2 ^ 53 : ℤ) : ℚ) = (2 : ℚ) ^ (53 : ℤ) by push_cast; norm_num]
        exact hup
      have h2 : (2 ^ 53 : ℤ) ≤ k := by exact_mod_cast h1
      omega
    have hE53 : E = 53 := by
      have hlt : (k : ℚ) < (2 : ℚ) ^ (54 : ℤ) := by
        rw [hk53]; push_cast; norm_num
      have := log2_lt_of_lt_zpow hkpos hlt
      rw [← hE] at this
      omega
    apply posRound_of_eq_int_mul (2 ^ 52) 1 (by rw [← hE, hE53]; norm_num)
    rw [hk53]
    push_cast
    norm_num

lemma floatRound_intCast (k : ℤ) (h1 : -2 ^ 53 ≤ k) (h2 : k ≤ 2 ^ 53) :
    floatRound (k : ℚ) = k := by
  unfold floatRound
  rcases lt_or_le k 0 with hk | hk
  · rw [if_pos (by exact_mod_cast hk)]
    have hcast : ((-k : ℤ) : ℚ) = -(k : ℚ) := by push_cast; ring
    rw [← hcast, posRound_intCast (-k) (by omega) (by omega)]
    push_cast; ring
  · rw [if_neg (not_lt.mpr (by exact_mod_cast hk : (0 : ℚ) ≤ (k : ℚ)))]
    exact posRound_intCast k hk h2

lemma abs_posRound_sub (q : ℚ) : |posRound q - q| ≤ 2 ^ (Int.log 2 q - 53) := by
  set e : ℤ := Int.log 2 q - 52 with he
  clear_value e
  have h2 : (0 : ℚ) < (2 : ℚ) ^ e := zpow_pos (by norm_num) _
  have key : posRound q - q = ((round (q / 2 ^ e) : ℚ) - q / 2 ^ e) * 2 ^ e := by
    unfold posRound
    rw [← he, sub_mul, div_mul_cancel₀ _ (ne_of_gt h2)]
  have habs : |(round (q / 2 ^ e) : ℚ) - q / 2 ^ e| ≤ 1 / 2 := by
    rw [abs_sub_comm]; exact abs_sub_round _
  calc |posRound q - q| = |(round (q / 2 ^ e) : ℚ) - q / 2 ^ e| * |(2 : ℚ) ^ e| := by
        rw [key, abs_mul]
  _ ≤ (1 / 2) * (2 : ℚ) ^ e := by
        apply mul_le_mul habs (le_of_eq (abs_of_pos h2)) (abs_nonneg _) (by norm_num)
  _ = 2 ^ (e - 1) := by
        rw [zpow_sub₀ (by norm_num : (2 : ℚ) ≠ 0) e 1, zpow_one]
        ring
  _ = 2 ^ (Int.log 2 q - 53) := by
        congr 1
        omega

lemma floatRound_of_nonneg {q : ℚ} (h : 0 ≤ q) : floatRound q = posRound q :=
  if_neg (not_lt.mpr h)

lemma i64trunc_of_nonneg {q : ℚ} (h : 0 ≤ q) : i64trunc q = ⌊q⌋ :=
  if_neg (not_lt.mpr h)

lemma encodeKey_eq_combinedKeyZ (s t : ℤ) (h1 : -2 ^ 63 ≤ combinedKeyZ s t)
    (h2 : combinedKeyZ s t < 2 ^ 63) : encodeKey s t = combinedKeyZ s t :=
  wrap64_eq_of_range _ h1 h2

/-- The central float64 fact: dividing an exact combined key
`s * 10^12 + r` by the float64 constant `1e12` and truncating recovers `s`,
for any raw score `0 ≤ s ≤ 9006` (so the key is below `2^53`) and any
reversed-timestamp remainder `0 ≤ r < 10^12`.  At `r = 10^12` (timestamp 0)
this FAILS: the quotient is exactly `s + 1`. -/
lemma decodeScore_key (s r : ℤ) (hs0 : 0 ≤ s) (hs : s ≤ 9006)
    (hr0 : 0 ≤ r) (hr : r < 1000000000000) :
    decodeScore ((s * 1000000000000 + r : ℤ) : ℚ) = s := by
  unfold decodeScore
  have hM : ((scoreMultiplier : ℤ) : ℚ) = (1000000000000 : ℚ) := by
    norm_num [scoreMultiplier]
  rw [hM]
  set q : ℚ := ((s * 1000000000000 + r : ℤ) : ℚ) / 1000000000000 with hq
  have hqval : q = (s : ℚ) + (r : ℚ) / 1000000000000 := by
    rw [hq]; push_cast; ring
  rcases eq_or_lt_of_le hr0 with h0 | h0
  · have hqs : q = (s : ℚ) := by rw [hqval, ← h0]; norm_num
    rw [hqs, floatRound_intCast s (by norm_num; omega) (by norm_num; omega),
      i64trunc_of_nonneg (by exact_mod_cast hs0), Int.floor_intCast]
  · have hr1 : (1 : ℚ) ≤ (r : ℚ) := by exact_mod_cast h0
    have hrT : (r : ℚ) ≤ 1000000000000 - 1 := by
      have : (r : ℚ) ≤ ((1000000000000 - 1 : ℤ) : ℚ) := by exact_mod_cast (by omega : r ≤ 1000000000000 - 1)
      push_cast at this
      linarith
    have hsq : (0 : ℚ) ≤ (s : ℚ) := by exact_mod_cast hs0
    have hsq' : (s : ℚ) ≤ 9006 := by exact_mod_cast hs
    have hql : (s : ℚ) + 1 / 1000000000000 ≤ q := by
      rw [hqval]; linarith
    have hqh : q ≤ (s : ℚ) + 1 - 1 / 1000000000000 := by
      rw [hqval]; linarith
    have hqpos : 0 < q := lt_of_lt_of_le (by positivity) hql
    have hE : Int.log 2 q ≤ 13 := by
      have hlt : q < (2 : ℚ) ^ (14 : ℤ) := by
        have : ((2 : ℚ) ^ (14 : ℤ)) = 16384 := by norm_num
        rw [this]; linarith
      have := log2_lt_of_lt_zpow hqpos hlt
      omega
    have hmono : (2 : ℚ) ^ (Int.log 2 q - 53) ≤ 1 / 1099511627776 := by
      calc (2 : ℚ) ^ (Int.log 2 q - 53) ≤ (2 : ℚ) ^ (-40 : ℤ) :=
            zpow_le_zpow_right₀ (by norm_num) (by omega)
      _ = 1 / 1099511627776 := by norm_num
    have hsmall : (1 : ℚ) / 1099511627776 < 1 / 1000000000000 := by norm_num
    have hb := abs_le.mp (le_trans (abs_posRound_sub q) hmono)
    rw [floatRound_of_nonneg (le_of_lt hqpos)]
    have hv1 : (s : ℚ) < posRound q := by
      have := hb.1
      linarith
    have hv2 : posRound q < (s : ℚ) + 1 := by
      have := hb.2
      linarith
    rw [i64trunc_of_nonneg (by linarith)]
    rw [Int.floor_eq_iff]
    constructor
    · exact le_of_lt hv1
    · exact hv2

lemma round_mono_q {x y : ℚ} (h : x ≤ y) : round x ≤ round y := by
  rw [round_eq, round_eq]
  exact Int.floor_le_floor (by linarith)

lemma posRound_nonneg {q : ℚ} (h : 0 ≤ q) : 0 ≤ posRound q := by
  unfold posRound
  apply mul_nonneg
  · have hx : (0 : ℚ) ≤ q / 2 ^ (Int.log 2 q - 52) :=
      div_nonneg h (le_of_lt (zpow_pos (by norm_num) _))
    have : (0 : ℤ) ≤ round (q / 2 ^ (Int.log 2 q - 52)) := by
      calc (0 : ℤ) = round (0 : ℚ) := by simp
      _ ≤ _ := round_mono_q hx
    exact_mod_cast this
  · exact le_of_lt (zpow_pos (by norm_num) _)

lemma posRound_le_zpow (q : ℚ) : posRound q ≤ 2 ^ (Int.log 2 q + 1) := by
  unfold posRound
  set E := Int.log 2 q with hE
  set x : ℚ := q / 2 ^ (E - 52) with hx
  have h2 : (0 : ℚ) < 2 ^ (E - 52) := zpow_pos (by norm_num) _
  have hxlt : x < 2 ^ (53 : ℤ) := by
    rw [hx, div_lt_iff₀ h2, ← zpow_add₀ (by norm_num : (2 : ℚ) ≠ 0)]
    have : (53 : ℤ) + (E - 52) = E + 1 := by ring
    rw [this]
    exact lt_zpow_log2_succ q
  have hub : (round x : ℚ) ≤ x + 1 / 2 := by
    have := (abs_le.mp (abs_sub_round x)).1
    linarith
  have hrd : round x ≤ 2 ^ 53 := by
    have hq53 : ((2 ^ 53 : ℤ) : ℚ) = 2 ^ (53 : ℤ) := by norm_num
    have hc : (round x : ℚ) < ((2 ^ 53 + 1 : ℤ) : ℚ) := by
      push_cast
      have h53 : ((2 : ℚ) ^ (53 : ℤ)) = 9007199254740992 := by norm_num
      rw [h53] at hxlt
      linarith
    have : round x < 2 ^ 53 + 1 := by exact_mod_cast hc
    omega
  calc (round x : ℚ) * 2 ^ (E - 52) ≤ (2 ^ (53 : ℤ) : ℚ) * 2 ^ (E - 52) := by
        apply mul_le_mul_of_nonneg_right _ (le_of_lt h2)
        have : ((2 ^ 53 : ℤ) : ℚ) = 2 ^ (53 : ℤ) := by norm_num
        rw [← this]
        exact_mod_cast hrd
  _ = 2 ^ (E + 1) := by
        rw [← zpow_add₀ (by norm_num : (2 : ℚ) ≠ 0)]
        congr 1
        ring

lemma zpow_le_posRound {q : ℚ} (hq : 0 < q) : 2 ^ (Int.log 2 q) ≤ posRound q := by
  unfold posRound
  set E := Int.log 2 q with hE
  set x : ℚ := q / 2 ^ (E - 52) with hx
  have h2 : (0 : ℚ) < 2 ^ (E - 52) := zpow_pos (by norm_num) _
  have hxge : 2 ^ (52 : ℤ) ≤ x := by
    rw [hx, le_div_iff₀ h2, ← zpow_add₀ (by norm_num : (2 : ℚ) ≠ 0)]
    have : (52 : ℤ) + (E - 52) = E := by ring
    rw [this, hE]
    exact zpow_log2_le hq
  have hlb : x - 1 / 2 ≤ (round x : ℚ) := by
    have := (abs_le.mp (abs_sub_round x)).2
    linarith
  have hrd : (2 ^ 52 : ℤ) ≤ round x := by
    have hc : ((2 ^ 52 - 1 : ℤ) : ℚ) < (round x : ℚ) := by
      push_cast
      have h52 : ((2 : ℚ) ^ (52 : ℤ)) = 4503599627370496 := by norm_num
      rw [h52] at hxge
      linarith
    have : (2 ^ 52 - 1 : ℤ) < round x := by exact_mod_cast hc
    omega
  calc (2 : ℚ) ^ E = 2 ^ (52 : ℤ) * 2 ^ (E - 52) := by
        rw [← zpow_add₀ (by norm_num : (2 : ℚ) ≠ 0)]
        congr 1
        ring
  _ ≤ (round x : ℚ) * 2 ^ (E - 52) := by
        apply mul_le_mul_of_nonneg_right _ (le_of_lt h2)
        have h52 : ((2 ^ 52 : ℤ) : ℚ) = 2 ^ (52 : ℤ) := by norm_num
        rw [← h52]
        exact_mod_cast hrd

lemma posRound_mono {a b : ℚ} (ha : 0 ≤ a) (h : a ≤ b) : posRound a ≤ posRound b := by
  rcases eq_or_lt_of_le ha with ha0 | ha0
  · rw [← ha0, posRound_zero]
    exact posRound_nonneg (le_trans ha h)
  have hb0 : 0 < b := lt_of_lt_of_le ha0 h
  have hEE : Int.log 2 a ≤ Int.log 2 b := Int.log_mono_right ha0 h
  rcases eq_or_lt_of_le hEE with hEE | hEE
  · unfold posRound
    rw [hEE]
    apply mul_le_mul_of_nonneg_right _ (le_of_lt (zpow_pos (by norm_num) _))
    have hd : a / 2 ^ (Int.log 2 b - 52) ≤ b / 2 ^ (Int.log 2 b - 52) := by
      rw [div_eq_mul_inv, div_eq_mul_inv]
      exact mul_le_mul_of_nonneg_right h
        (inv_nonneg.mpr (le_of_lt (zpow_pos (by norm_num) _)))
    exact_mod_cast round_mono_q hd
  · calc posRound a ≤ 2 ^ (Int.log 2 a + 1) := posRound_le_zpow a
    _ ≤ 2 ^ (Int.log 2 b) := zpow_le_zpow_right₀ (by norm_num) (by omega)
    _ ≤ posRound b := zpow_le_posRound hb0

lemma floatRound_mono : Monotone floatRound := by
  intro a b h
  unfold floatRound
  rcases lt_or_le a 0 with ha | ha
  · rw [if_pos ha]
    rcases lt_or_le b 0 with hb | hb
    · rw [if_pos hb]
      exact neg_le_neg (posRound_mono (by linarith) (by linarith))
    · rw [if_neg (not_lt.mpr hb)]
      exact le_trans (neg_nonpos.mpr (posRound_nonneg (by linarith))) (posRound_nonneg hb)
  · rw [if_neg (not_lt.mpr ha), if_neg (not_lt.mpr (le_trans ha h))]
    exact posRound_mono ha h

lemma i64trunc_mono : Monotone i64trunc := by
  intro a b h
  unfold i64trunc
  rcases lt_or_le a 0 with ha | ha
  · rw [if_pos ha]
    rcases lt_or_le b 0 with hb | hb
    · rw [if_pos hb]
      exact neg_le_neg (Int.floor_le_floor (by linarith))
    · rw [if_neg (not_lt.mpr hb)]
      have h1 : (0 : ℤ) ≤ ⌊-a⌋ := Int.le_floor.mpr (by push_cast; linarith)
      have h2 : (0 : ℤ) ≤ ⌊b⌋ := Int.le_floor.mpr (by exact_mod_cast hb)
      omega
  · rw [if_neg (not_lt.mpr ha), if_neg (not_lt.mpr (le_trans ha h))]
    exact Int.floor_le_floor h

lemma decodeScore_mono : Monotone decodeScore := by
  intro a b h
  unfold decodeScore
  apply i64trunc_mono
  apply floatRound_mono
  have hM : (0 : ℚ) < ((scoreMultiplier : ℤ) : ℚ) := by norm_num [scoreMultiplier]
  rw [div_eq_mul_inv, div_eq_mul_inv]
  exact mul_le_mul_of_nonneg_right h (inv_nonneg.mpr (le_of_lt hM))

lemma key_lt_of_decode_lt {x y : ℚ} (h : decodeScore x < decodeScore y) : x < y := by
  by_contra hc
  exact absurd (decodeScore_mono (not_lt.mp hc)) (not_le.mpr h)

/-- `9008 * 10^12 + 3` is odd and larger than `2^53`, so the float64 grid
spacing there is 2 and the conversion to float64 rounds: the exact half-way
case goes up to `... + 4`, whose mantissa is even, so round-half-up (used by
the model) and IEEE round-half-even agree here. -/
lemma floatRound_key9008 :
    floatRound (9008000000000003 : ℚ) = (9008000000000004 : ℚ) := by
  rw [floatRound_of_nonneg (by norm_num)]
  unfold posRound
  have hE : Int.log 2 (9008000000000003 : ℚ) = 53 := by
    apply le_antisymm
    · have h1 : (9008000000000003 : ℚ) < (2 : ℚ) ^ (54 : ℤ) := by norm_num
      have := log2_lt_of_lt_zpow (by norm_num) h1
      omega
    · exact le_log2_of_zpow_le (by norm_num) (by norm_num)
  rw [hE, show (53 - 52 : ℤ) = 1 by norm_num, zpow_one]
  have hhalf : (9008000000000003 : ℚ) / 2 = 4504000000000001 + 1 / 2 := by norm_num
  rw [hhalf, round_eq]
  norm_num

/-! ### Facts about the ordered-index model -/

instance : IsTotal (String × ℚ) keyOrder := ⟨by
  intro a b
  unfold keyOrder
  rcases lt_trichotomy a.2 b.2 with h | h | h
  · exact Or.inr (Or.inl h)
  · rcases le_total a.1 b.1 with h1 | h1
    · exact Or.inr (Or.inr ⟨h.symm, h1⟩)
    · exact Or.inl (Or.inr ⟨h, h1⟩)
  · exact Or.inl (Or.inl h)⟩

instance : IsTrans (String × ℚ) keyOrder := ⟨by
  intro a b c hab hbc
  unfold keyOrder at hab hbc ⊢
  rcases hab with h1 | ⟨e1, s1⟩
  · rcases hbc with h2 | ⟨e2, s2⟩
    · exact Or.inl (lt_trans h2 h1)
    · exact Or.inl (e2 ▸ h1)
  · rcases hbc with h2 | ⟨e2, s2⟩
    · exact Or.inl (by rw [e1]; exact h2)
    · exact Or.inr ⟨e1.trans e2, le_trans s2 s1⟩⟩

lemma sortedL_perm (st : LbState) : (sortedL st).Perm st := List.perm_insertionSort _ _

lemma sortedL_length (st : LbState) : (sortedL st).length = st.length :=
  (sortedL_perm st).length_eq

lemma sortedL_sorted (st : LbState) : List.Sorted keyOrder (sortedL st) :=
  List.sorted_insertionSort _ _

lemma sortedL_scores_anti (st : LbState) {i j : ℕ} (hij : i ≤ j) {a b : String × ℚ}
    (ha : (sortedL st)[i]? = some a) (hb : (sortedL st)[j]? = some b) : b.2 ≤ a.2 := by
  rcases eq_or_lt_of_le hij with rfl | hlt
  · rw [ha] at hb
    cases hb
    exact le_refl _
  · have hjl : j < (sortedL st).length := by
      by_contra hc
      rw [List.getElem?_eq_none (le_of_not_lt hc)] at hb
      cases hb
    have hil : i < (sortedL st).length := lt_trans hlt hjl
    have hrel := (List.pairwise_iff_getElem.mp (sortedL_sorted st)) i j hil hjl hlt
    rw [List.getElem?_eq_getElem hil] at ha
    rw [List.getElem?_eq_getElem hjl] at hb
    cases ha
    cases hb
    rcases hrel with h | ⟨e, _⟩
    · exact le_of_lt h
    · exact le_of_eq e.symm

lemma zscore_zadd_self (st : LbState) (id : String) (v : ℚ) :
    zscore (zadd st id v) id = some v := by
  unfold zscore zadd
  rw [List.find?_append]
  have h1 : (st.filter (fun e => ¬ e.1 = id)).find? (fun e => e.1 = id) = none := by
    rw [List.find?_eq_none]
    intro x hx
    have := List.of_mem_filter hx
    simp at this ⊢
    exact this
  rw [h1]
  simp [List.find?]

lemma zscore_zadd_other (st : LbState) (id q : String) (v : ℚ) (h : q ≠ id) :
    zscore (zadd st id v) q = zscore st q := by
  unfold zscore zadd
  rw [List.find?_append]
  have h2 : ([(id, v)]).find? (fun e => e.1 = q) = none := by
    rw [List.find?_eq_none]
    intro x hx
    simp at hx
    subst hx
    simp
    exact fun hc => h hc.symm
  rw [h2]
  have h3 : (st.filter (fun e => ¬ e.1 = id)).find? (fun e => e.1 = q)
      = st.find? (fun e => e.1 = q) := by
    induction st with
    | nil => rfl
    | cons e rest ih =>
      by_cases he : e.1 = q
      · have hne : ¬ e.1 = id := by rw [he]; exact fun hc => h hc
        rw [List.filter_cons_of_pos (by simpa using hne),
          List.find?_cons_of_pos _ (by simpa using he),
          List.find?_cons_of_pos _ (by simpa using he)]
      · by_cases hd : e.1 = id
        · rw [List.filter_cons_of_neg (by simpa using hd),
            List.find?_cons_of_neg _ (by simpa using he)]
          exact ih
        · rw [List.filter_cons_of_pos (by simpa using hd),
            List.find?_cons_of_neg _ (by simpa using he),
            List.find?_cons_of_neg _ (by simpa using he)]
          exact ih
  rw [h3]
  cases st.find? (fun e => e.1 = q) <;> rfl

lemma labelFrom_length (startR : ℤ) (l : LbState) :
    (labelFrom startR l).length = l.length := by
  induction l generalizing startR with
  | nil => rfl
  | cons e rest ih => simp [labelFrom, ih]

lemma labelFrom_getElem? (startR : ℤ) (l : LbState) (i : ℕ) :
    (labelFrom startR l)[i]? =
      (l[i]?).map (fun e => ⟨e.1, decodeScore e.2, startR + i⟩) := by
  induction l generalizing startR i with
  | nil => simp [labelFrom]
  | cons e rest ih =>
    cases i with
    | zero => simp [labelFrom]
    | succ n =>
      simp only [labelFrom, List.getElem?_cons_succ]
      rw [ih]
      cases h : rest[n]? with
      | none => simp [h]
      | some a =>
        simp [h]
        ring

lemma labelFrom_map_id (startR : ℤ) (l : LbState) :
    (labelFrom startR l).map (fun i => i.PlayerID) = l.map Prod.fst := by
  induction l generalizing startR with
  | nil => rfl
  | cons e rest ih => simp [labelFrom, ih]

lemma findIdx?_some_spec {α : Type} (pred : α → Bool) (l : List α) (i : ℕ)
    (h : l.findIdx? pred = some i) :
    ∃ hl : i < l.length, pred (l.get ⟨i, hl⟩) = true := by
  induction l generalizing i with
  | nil => cases h
  | cons a rest ih =>
    rw [List.findIdx?_cons] at h
    by_cases hp : pred a
    · rw [if_pos hp] at h
      cases h
      exact ⟨by simp, hp⟩
    · rw [if_neg hp, List.findIdx?_succ] at h
      cases hj : rest.findIdx? pred with
      | none => rw [hj] at h; cases h
      | some j =>
        rw [hj] at h
        simp at h
        subst h
        obtain ⟨hl, hpj⟩ := ih j hj
        refine ⟨by simp; omega, ?_⟩
        simpa using hpj

lemma eq_of_mem_nodupKeys {l : List (String × ℚ)} (hnd : (l.map Prod.fst).Nodup)
    {a b : String × ℚ} (ha : a ∈ l) (hb : b ∈ l) (h : a.1 = b.1) : a = b := by
  induction l with
  | nil => cases ha
  | cons c rest ih =>
    rw [List.map_cons, List.nodup_cons] at hnd
    rcases List.mem_cons.mp ha with rfl | ha' <;>
      rcases List.mem_cons.mp hb with rfl | hb'
    · rfl
    · have hmem : b.1 ∈ List.map Prod.fst rest := List.mem_map_of_mem Prod.fst hb'
      rw [← h] at hmem
      exact absurd hmem hnd.1
    · have hmem : a.1 ∈ List.map Prod.fst rest := List.mem_map_of_mem Prod.fst ha'
      rw [h] at hmem
      exact absurd hmem hnd.1
    · exact ih hnd.2 ha' hb'

lemma getPlayerRank_some {st : LbState} {id : String} {info : RankInfo}
    (h : getPlayerRank st id = some info) :
    ∃ p cs, zrevrank st id = some p ∧ zscore st id = some cs ∧
      info = ⟨id, decodeScore cs, (p : ℤ) + 1⟩ := by
  unfold getPlayerRank at h
  cases hp : zrevrank st id with
  | none => rw [hp] at h; cases h
  | some p =>
    rw [hp] at h
    cases hcs : zscore st id with
    | none => rw [hcs] at h; cases h
    | some cs =>
      rw [hcs] at h
      exact ⟨p, cs, rfl, rfl, (Option.some_injective _ h).symm⟩

lemma decodeScore_zero : decodeScore 0 = 0 := by
  unfold decodeScore
  rw [zero_div, floatRound_of_nonneg (le_refl 0), posRound_zero,
    i64trunc_of_nonneg (le_refl 0), Int.floor_zero]

/-! ### C1: round-trip of the score encoding -/

/-- C1, counterexample: rawScore 5 with timestamp 0 lies in the claimed
domain `[0,1000] × [0, MAX_TIMESTAMP)`, but since the code has
`MULTIPLIER = MAX_TIMESTAMP`, the stored key is `(5+1) * 10^12` and decoding
returns 6, not 5. -/
theorem c1_roundTrip_cex :
    decodeScore (combinedFloat 5 0) = 6 ∧ (6 : ℤ) ≠ 5 := by
  constructor
  · have hk : encodeKey 5 0 = 6000000000000 := by
      rw [encodeKey_eq_combinedKeyZ 5 0
        (by unfold combinedKeyZ scoreMultiplier maxTimestampReversed; omega)
        (by unfold combinedKeyZ scoreMultiplier maxTimestampReversed; omega)]
      unfold combinedKeyZ scoreMultiplier maxTimestampReversed
      omega
    unfold combinedFloat
    rw [hk, floatRound_intCast 6000000000000 (by omega) (by omega),
      show (6000000000000 : ℤ) = 6 * 1000000000000 + 0 by omega]
    exact decodeScore_key 6 0 (by omega) (by omega) (by omega) (by omega)
  · omega

/-- C1 (corrected): the round-trip
`decodeScore (float64 (Encode s t)) = s` holds for every rawScore
`s ∈ [0, 1000]` and every timestamp `t ∈ [1, MAX_TIMESTAMP)`; timestamp 0
must be excluded because `MULTIPLIER = MAX_TIMESTAMP` in the code, so the
reversed-timestamp term at `t = 0` equals `MULTIPLIER` and carries into the
score digit. -/
theorem c1_roundTrip_amended (s t : ℤ) (hs0 : 0 ≤ s) (hs : s ≤ 1000)
    (ht0 : 1 ≤ t) (ht : t < maxTimestampReversed) :
    decodeScore (combinedFloat s t) = s := by
  have ht' : t < 1000000000000 := ht
  have hk : encodeKey s t = s * 1000000000000 + (1000000000000 - t) := by
    rw [encodeKey_eq_combinedKeyZ s t
      (by unfold combinedKeyZ scoreMultiplier maxTimestampReversed; omega)
      (by unfold combinedKeyZ scoreMultiplier maxTimestampReversed; omega)]
    unfold combinedKeyZ scoreMultiplier maxTimestampReversed
    omega
  unfold combinedFloat
  rw [hk, floatRound_intCast _ (by omega) (by omega)]
  exact decodeScore_key s (1000000000000 - t) hs0 (by omega) (by omega) (by omega)

/-- C1, witness. -/
theorem c1_roundTrip_witness : decodeScore (combinedFloat 5 1) = 5 :=
  c1_roundTrip_amended 5 1 (by decide) (by decide) (by decide) (by decide)

/-! ### C5: order preservation of the combined key -/

/-- C5, counterexample: the claim's premise `MULTIPLIER > MAX_TIMESTAMP` is
false in the code (both are `10^12`), so the timestamp term CAN overlap the
score term: rawScore 1 at timestamp `MAX_TIMESTAMP` and rawScore 0 at
timestamp 0 produce the SAME combined key, refuting strict monotonicity on
the claimed domain. -/
theorem c5_orderPreserving_cex :
    combinedKeyZ 1 maxTimestampReversed = combinedKeyZ 0 0 ∧ (0 : ℤ) < 1 := by
  constructor
  · unfold combinedKeyZ scoreMultiplier maxTimestampReversed
    omega
  · omega

/-- C5 (corrected): strict monotonicity in the rawScore holds once the
higher-score timestamp is restricted to `[0, MAX_TIMESTAMP)` (excluding the
boundary collision caused by `MULTIPLIER = MAX_TIMESTAMP`); for equal
rawScore, a strictly smaller timestamp always yields a strictly greater
combined key, on the full domain `[0, MAX_TIMESTAMP]`. -/
theorem c5_orderPreserving_amended :
    (∀ s1 s2 t1 t2 : ℤ, 0 ≤ s1 → s1 < s2 → 0 ≤ t1 → t1 ≤ maxTimestampReversed →
      0 ≤ t2 → t2 < maxTimestampReversed →
      combinedKeyZ s1 t1 < combinedKeyZ s2 t2)
    ∧ (∀ s t1 t2 : ℤ, 0 ≤ t1 → t1 < t2 → t2 ≤ maxTimestampReversed →
      combinedKeyZ s t2 < combinedKeyZ s t1) := by
  constructor
  · intro s1 s2 t1 t2 h1 h2 h3 h4 h5 h6
    unfold combinedKeyZ scoreMultiplier at *
    unfold maxTimestampReversed at h4 h6
    have hmul : (s2 - s1) * 1000000000000 ≥ 1 * 1000000000000 := by
      apply mul_le_mul_of_nonneg_right _ (by omega)
      omega
    nlinarith
  · intro s t1 t2 h1 h2 h3
    unfold combinedKeyZ scoreMultiplier maxTimestampReversed at *
    omega

/-- C5, witness. -/
theorem c5_orderPreserving_witness :
    combinedKeyZ 3 7 < combinedKeyZ 4 9 ∧ combinedKeyZ 3 9 < combinedKeyZ 3 7 :=
  ⟨c5_orderPreserving_amended.1 3 4 7 9 (by decide) (by decide) (by decide) (by decide)
    (by decide) (by decide),
   c5_orderPreserving_amended.2 3 7 9 (by decide) (by decide) (by decide)⟩

/-! ### C3: input validation of UpdateScore -/

/-- C3, counterexample: updating an absent player with delta `-1` makes
`newScore = -1 < 0`; the claim says the call fails with InvalidInput and
leaves the index unchanged, but the code performs no check: the player is
stored (with combined key `-10`) and no error is returned. -/
theorem c3_noValidation_cex :
    zscore (updateScore [] "a" (-1) 10) "a" = some ((-10 : ℤ) : ℚ)
    ∧ (0 : ℤ) + (-1) < 0 := by
  constructor
  · unfold updateScore
    rw [show (zscore ([] : LbState) "a").getD 0 = (0 : ℚ) from rfl]
    dsimp only
    rw [decodeScore_zero]
    have hk : encodeKey (0 + -1) 10 = (-10 : ℤ) := by
      rw [show (0 + -1 : ℤ) = -1 by omega, encodeKey_eq_combinedKeyZ (-1) 10
        (by unfold combinedKeyZ scoreMultiplier maxTimestampReversed; omega)
        (by unfold combinedKeyZ scoreMultiplier maxTimestampReversed; omega)]
      unfold combinedKeyZ scoreMultiplier maxTimestampReversed
      omega
    rw [hk, floatRound_intCast (-10) (by omega) (by omega)]
    exact zscore_zadd_self _ _ _
  · omega

/-- C3 (corrected): `UpdateScore` performs NO input validation: for every
state, player, delta and timestamp — negative resulting scores and
timestamps outside `[0, MAX_TIMESTAMP]` included — it upserts the encoded
key for the player and leaves every other player's entry unchanged; no
InvalidInput error exists (the Go function can only propagate a redis
transport error). -/
theorem c3_noValidation_amended (st : LbState) (id : String) (delta t : ℤ) :
    zscore (updateScore st id delta t) id =
      some (floatRound ((encodeKey (decodeScore ((zscore st id).getD 0) + delta) t : ℤ) : ℚ))
    ∧ ∀ q, q ≠ id → zscore (updateScore st id delta t) q = zscore st q := by
  constructor
  · exact zscore_zadd_self _ _ _
  · intro q hq
    exact zscore_zadd_other _ _ _ _ hq

/-- C3, witness (delta makes the new score negative, timestamp is out of
range, and the entry is nevertheless written; the bystander entry is kept). -/
theorem c3_noValidation_witness :
    zscore (updateScore [("b", (3 : ℚ))] "a" (-5) 2000000000000) "a" =
      some (floatRound ((encodeKey (decodeScore ((zscore [("b", (3 : ℚ))] "a").getD 0) + -5)
        2000000000000 : ℤ) : ℚ))
    ∧ zscore (updateScore [("b", (3 : ℚ))] "a" (-5) 2000000000000) "b" =
        zscore [("b", (3 : ℚ))] "b" :=
  ⟨(c3_noValidation_amended [("b", (3 : ℚ))] "a" (-5) 2000000000000).1,
   (c3_noValidation_amended [("b", (3 : ℚ))] "a" (-5) 2000000000000).2 "b" (by decide)⟩

/-! ### C4: PrecisionExceeded on encode -/

/-- C4, counterexample: at rawScore 9008 the exact combined key
`9008 * 10^12 + 3` exceeds `2^53` and is odd, so float64 cannot represent
it; the claim says the encode step fails with PrecisionExceeded, but the
code silently stores the ROUNDED key `9008 * 10^12 + 4` and reports no
error. -/
theorem c4_precision_cex :
    zscore (updateScore [] "a" 9008 (1000000000000 - 3)) "a" = some (9008000000000004 : ℚ)
    ∧ combinedKeyZ 9008 (1000000000000 - 3) = 9008000000000003 := by
  have hck : combinedKeyZ 9008 (1000000000000 - 3) = 9008000000000003 := by
    unfold combinedKeyZ scoreMultiplier maxTimestampReversed
    omega
  constructor
  · unfold updateScore
    rw [show (zscore ([] : LbState) "a").getD 0 = (0 : ℚ) from rfl]
    dsimp only
    rw [decodeScore_zero]
    have hk : encodeKey (0 + 9008) (1000000000000 - 3) = (9008000000000003 : ℤ) := by
      rw [show (0 + 9008 : ℤ) = 9008 by omega, encodeKey_eq_combinedKeyZ 9008 _
        (by unfold combinedKeyZ scoreMultiplier maxTimestampReversed; omega)
        (by unfold combinedKeyZ scoreMultiplier maxTimestampReversed; omega)]
      exact hck
    rw [hk, show ((9008000000000003 : ℤ) : ℚ) = (9008000000000003 : ℚ) by norm_num,
      floatRound_key9008]
    exact zscore_zadd_self _ _ _
  · exact hck

/-- C4 (corrected): no PrecisionExceeded check exists.  What does hold: the
float64 conversion of the combined key is EXACT whenever the key's absolute
value is at most `2^53` (so raw scores up to 9006 with in-range timestamps
are stored exactly); beyond that the code silently stores a rounded key, as
the counterexample shows at rawScore 9008. -/
theorem c4_precision_amended (s t : ℤ)
    (h1 : -2 ^ 53 ≤ combinedKeyZ s t) (h2 : combinedKeyZ s t ≤ 2 ^ 53) :
    combinedFloat s t = ((combinedKeyZ s t : ℤ) : ℚ) := by
  unfold combinedFloat
  rw [encodeKey_eq_combinedKeyZ s t (by omega) (by omega)]
  exact floatRound_intCast _ h1 h2

/-- C4, witness. -/
theorem c4_precision_witness : combinedFloat 2 5 = ((combinedKeyZ 2 5 : ℤ) : ℚ) :=
  c4_precision_amended 2 5 (by decide) (by decide)

/-! ### C9: idempotence of a zero delta -/

/-- C9, counterexample: a player stored with rawScore 5 (timestamp
`10^12 - 500`), updated with delta 0 at the VALID timestamp 0, ends up with
decoded rawScore 6: the zero-delta update changed the player's score,
because re-encoding at timestamp 0 adds a full `MULTIPLIER` to the key. -/
theorem c9_zeroDelta_cex :
    decodeScore ((5 * 1000000000000 + 500 : ℤ) : ℚ) = 5
    ∧ zscore (updateScore [("p", ((5 * 1000000000000 + 500 : ℤ) : ℚ))] "p" 0 0) "p"
        = some ((6 * 1000000000000 : ℤ) : ℚ)
    ∧ decodeScore ((6 * 1000000000000 : ℤ) : ℚ) = 6 := by
  have h5 : decodeScore ((5 * 1000000000000 + 500 : ℤ) : ℚ) = 5 :=
    decodeScore_key 5 500 (by omega) (by omega) (by omega) (by omega)
  refine ⟨h5, ?_, decodeScore_key 6 0 (by omega) (by omega) (by omega) (by omega)⟩
  unfold updateScore
  rw [show (zscore [("p", ((5 * 1000000000000 + 500 : ℤ) : ℚ))] "p").getD 0
      = ((5 * 1000000000000 + 500 : ℤ) : ℚ) from rfl]
  dsimp only
  rw [h5]
  have hk : encodeKey (5 + 0) 0 = (6 * 1000000000000 : ℤ) := by
    rw [show (5 + 0 : ℤ) = 5 by omega, encodeKey_eq_combinedKeyZ 5 0
      (by unfold combinedKeyZ scoreMultiplier maxTimestampReversed; omega)
      (by unfold combinedKeyZ scoreMultiplier maxTimestampReversed; omega)]
    unfold combinedKeyZ scoreMultiplier maxTimestampReversed
    omega
  rw [hk, floatRound_intCast _ (by omega) (by omega)]
  exact zscore_zadd_self _ _ _

/-- C9 (corrected): for a stored player whose decoded rawScore `s` lies in
the float64-exact range `[0, 9006]` and a timestamp `t ∈ [1, MAX_TIMESTAMP]`
(timestamp 0 excluded — see the counterexample), `UpdateScore(id, 0, t)`
keeps the decoded rawScore equal to `s`, keeps every other player's stored
key unchanged, and preserves the strict combined-key comparison between the
player and every other player holding a DIFFERENT decoded rawScore — hence
the standard rank relative to those players is unchanged (the position
among equal-rawScore players may still shift with the new timestamp). -/
theorem c9_zeroDelta_amended (st : LbState) (id : String) (t : ℤ) (k : ℚ)
    (hk : zscore st id = some k) (hs0 : 0 ≤ decodeScore k) (hs : decodeScore k ≤ 9006)
    (ht0 : 1 ≤ t) (ht : t ≤ maxTimestampReversed) :
    decodeScore ((zscore (updateScore st id 0 t) id).getD 0) = decodeScore k
    ∧ ∀ q kq, q ≠ id → zscore st q = some kq → decodeScore kq ≠ decodeScore k →
        zscore (updateScore st id 0 t) q = some kq
        ∧ ((kq < k) ↔ (kq < (zscore (updateScore st id 0 t) id).getD 0))
        ∧ ((k < kq) ↔ ((zscore (updateScore st id 0 t) id).getD 0 < kq)) := by
  have ht' : t ≤ 1000000000000 := ht
  set s := decodeScore k with hsdef
  have hke : encodeKey (s + 0) t = s * 1000000000000 + (1000000000000 - t) := by
    rw [show s + 0 = s by omega, encodeKey_eq_combinedKeyZ s t
      (by unfold combinedKeyZ scoreMultiplier maxTimestampReversed; omega)
      (by unfold combinedKeyZ scoreMultiplier maxTimestampReversed; omega)]
    unfold combinedKeyZ scoreMultiplier maxTimestampReversed
    omega
  have hupd : zscore (updateScore st id 0 t) id
      = some (((s * 1000000000000 + (1000000000000 - t) : ℤ) : ℚ)) := by
    unfold updateScore
    rw [hk]
    dsimp only [Option.getD_some]
    rw [← hsdef, hke, floatRound_intCast _ (by omega) (by omega)]
    exact zscore_zadd_self _ _ _
  have hdec : decodeScore (((s * 1000000000000 + (1000000000000 - t) : ℤ) : ℚ)) = s :=
    decodeScore_key s (1000000000000 - t) hs0 hs (by omega) (by omega)
  constructor
  · rw [hupd]
    exact hdec
  · intro q kq hq hkq hne
    refine ⟨?_, ?_, ?_⟩
    · rw [show updateScore st id 0 t
          = zadd st id (floatRound ((encodeKey (decodeScore ((zscore st id).getD 0) + 0) t : ℤ) : ℚ))
          from rfl, zscore_zadd_other _ _ _ _ hq]
      exact hkq
    · rw [hupd]
      dsimp only [Option.getD_some]
      constructor
      · intro h
        have h1 : decodeScore kq < s := lt_of_le_of_ne (decodeScore_mono (le_of_lt h)) hne
        rw [← hdec] at h1
        exact key_lt_of_decode_lt h1
      · intro h
        have h1 : decodeScore kq < s := by
          rw [← hdec]
          exact lt_of_le_of_ne (decodeScore_mono (le_of_lt h)) (by rw [hdec]; exact hne)
        exact key_lt_of_decode_lt h1
    · rw [hupd]
      dsimp only [Option.getD_some]
      constructor
      · intro h
        have h1 : s < decodeScore kq :=
          lt_of_le_of_ne (decodeScore_mono (le_of_lt h)) (Ne.symm hne)
        rw [← hdec] at h1
        exact key_lt_of_decode_lt h1
      · intro h
        have h1 : s < decodeScore kq := by
          rw [← hdec]
          exact lt_of_le_of_ne (decodeScore_mono (le_of_lt h))
            (by rw [hdec]; exact Ne.symm hne)
        exact key_lt_of_decode_lt h1

/-- C9, witness. -/
theorem c9_zeroDelta_witness :
    decodeScore ((zscore (updateScore [("p", ((5 * 1000000000000 + 500 : ℤ) : ℚ)),
        ("q", ((7 * 1000000000000 : ℤ) : ℚ))] "p" 0 1000000000000) "p").getD 0)
      = decodeScore ((5 * 1000000000000 + 500 : ℤ) : ℚ) := by
  have h5 : decodeScore ((5 * 1000000000000 + 500 : ℤ) : ℚ) = 5 :=
    decodeScore_key 5 500 (by decide) (by decide) (by decide) (by decide)
  exact (c9_zeroDelta_amended
    [("p", ((5 * 1000000000000 + 500 : ℤ) : ℚ)), ("q", ((7 * 1000000000000 : ℤ) : ℚ))]
    "p" 1000000000000 ((5 * 1000000000000 + 500 : ℤ) : ℚ) rfl (by rw [h5]; decide)
    (by rw [h5]; decide) (by decide) (by decide)).1

/-! ### C2: dense-rank equality -/

/-- The §8 scenario state restricted to the players that matter: playerA
and playerB both hold rawScore 100 (timestamps 100 and 50 before the
reversal), playerD holds rawScore 120. -/
def stDense : LbState :=
  [("playerA", ((100 * 1000000000000 + (1000000000000 - 100) : ℤ) : ℚ)),
   ("playerB", ((100 * 1000000000000 + (1000000000000 - 50) : ℤ) : ℚ)),
   ("playerD", ((120 * 1000000000000 + (1000000000000 - 60) : ℤ) : ℚ))]

/-- A `ZCount` whose lower bound is `+inf` counts nothing: no stored
(finite) score satisfies the inverted range. -/
lemma zcountRange_posInf_min (st : LbState) (mx : ZScoreBound) :
    zcountRange st ZScoreBound.posInf mx = 0 := by
  unfold zcountRange
  induction st with
  | nil => rfl
  | cons a rest ih =>
    rw [List.filter_cons_of_neg (by simp [satisfiesMin])]
    exact ih

/-- C2 (code bug): the go-redis call is
`ZCount(ctx, key, "+inf", "(combinedScore")`, whose third argument is the
range MIN and whose fourth is the range MAX: the range is inverted, so
redis counts 0 members and `GetPlayerRankDense` returns dense rank 1 for
EVERY player.  On the scenario state, playerA, playerB (rawScore 100) and
playerD (rawScore 120) all get rank 1, while the rank the claim prescribes
— (number of players with strictly greater decoded rawScore) + 1, which the
function's own comments and the demo's expectations also describe — is 2
for playerA and playerB (playerD is strictly above them). -/
theorem c2_denseRank_bug :
    getPlayerRankDense stDense "playerA" = some ⟨"playerA", 100, 1⟩
    ∧ getPlayerRankDense stDense "playerB" = some ⟨"playerB", 100, 1⟩
    ∧ getPlayerRankDense stDense "playerD" = some ⟨"playerD", 120, 1⟩
    ∧ ((stDense.filter (fun e => 100 < decodeScore e.2)).length : ℤ) + 1 = 2 := by
  have hA : decodeScore ((100 * 1000000000000 + (1000000000000 - 100) : ℤ) : ℚ) = 100 :=
    decodeScore_key 100 (1000000000000 - 100) (by omega) (by omega) (by omega) (by omega)
  have hB : decodeScore ((100 * 1000000000000 + (1000000000000 - 50) : ℤ) : ℚ) = 100 :=
    decodeScore_key 100 (1000000000000 - 50) (by omega) (by omega) (by omega) (by omega)
  have hD : decodeScore ((120 * 1000000000000 + (1000000000000 - 60) : ℤ) : ℚ) = 120 :=
    decodeScore_key 120 (1000000000000 - 60) (by omega) (by omega) (by omega) (by omega)
  refine ⟨?_, ?_, ?_, ?_⟩
  · unfold getPlayerRankDense
    rw [show zscore stDense "playerA"
        = some ((100 * 1000000000000 + (1000000000000 - 100) : ℤ) : ℚ) from rfl]
    dsimp only
    rw [hA, zcountRange_posInf_min]
    norm_num
  · unfold getPlayerRankDense
    rw [show zscore stDense "playerB"
        = some ((100 * 1000000000000 + (1000000000000 - 50) : ℤ) : ℚ) from rfl]
    dsimp only
    rw [hB, zcountRange_posInf_min]
    norm_num
  · unfold getPlayerRankDense
    rw [show zscore stDense "playerD"
        = some ((120 * 1000000000000 + (1000000000000 - 60) : ℤ) : ℚ) from rfl]
    dsimp only
    rw [hD, zcountRange_posInf_min]
    norm_num
  · have hfil : stDense.filter (fun e => 100 < decodeScore e.2)
        = [("playerD", ((120 * 1000000000000 + (1000000000000 - 60) : ℤ) : ℚ))] := by
      unfold stDense
      simp only [List.filter_cons, List.filter_nil, decide_eq_true_eq]
      rw [hA, hB, hD]
      norm_num
    rw [hfil]
    norm_num

lemma zrevrange_zero (st : LbState) (m : ℤ) (hm : 0 ≤ m) :
    zrevrange st 0 m = (sortedL st).take (m.toNat + 1) := by
  unfold zrevrange
  dsimp only
  rw [if_neg (lt_irrefl (0 : ℤ)), if_neg (not_lt.mpr hm)]
  by_cases hlen : (sortedL st).length = 0
  · rw [if_pos (Or.inr (by rw [hlen]; norm_num)), List.length_eq_zero.mp hlen,
      List.take_nil]
  · rw [if_neg (by push_neg; exact ⟨hm, by omega⟩)]
    rw [Int.toNat_zero, List.drop_zero]

/-! ### C7: output contract of GetTopN -/

/-- C7, counterexample: on a one-player leaderboard, `GetTopN(0)` returns
that player, not the empty list the claim demands: redis interprets the
stop index `n - 1 = -1` as "last element", so `ZRevRange(0, -1)` fetches
the WHOLE leaderboard. -/
theorem c7_topN_cex :
    getTopN [("a", ((1000000000000 : ℤ) : ℚ))] 0 = [⟨"a", 1, 1⟩] := by
  have hdec : decodeScore ((1000000000000 : ℤ) : ℚ) = 1 := by
    rw [show ((1000000000000 : ℤ)) = 1 * 1000000000000 + 0 by omega]
    exact decodeScore_key 1 0 (by omega) (by omega) (by omega) (by omega)
  have hrange : zrevrange [("a", ((1000000000000 : ℤ) : ℚ))] 0 (0 - 1)
      = [("a", ((1000000000000 : ℤ) : ℚ))] := by decide
  unfold getTopN
  rw [hrange]
  unfold labelFrom
  rw [hdec]
  rfl

/-- C7 (corrected): for every `n ≥ 1`, `GetTopN(n)` returns exactly
`min n populationSize` entries; entry `i` is the `i`-th member of the
descending-key view with rank `i + 1` (so the ranks are exactly `1..k`);
the decoded scores are non-increasing along the output; and the underlying
combined keys are non-increasing along the view.  For `n ≤ 0` the claimed
"empty list" is false — redis wraps the stop index `n - 1` to the end of
the leaderboard (counterexample above). -/
theorem c7_topN_amended (st : LbState) (n : ℤ) (hn : 1 ≤ n) :
    (getTopN st n).length = min n.toNat st.length
    ∧ (∀ i : ℕ, i < min n.toNat st.length →
        (getTopN st n)[i]?
          = ((sortedL st)[i]?).map (fun e => ⟨e.1, decodeScore e.2, (i : ℤ) + 1⟩))
    ∧ (∀ i j : ℕ, i ≤ j → ∀ a b : RankInfo, (getTopN st n)[i]? = some a →
        (getTopN st n)[j]? = some b → b.Score ≤ a.Score)
    ∧ (∀ i j : ℕ, i ≤ j → ∀ a b : String × ℚ, (sortedL st)[i]? = some a →
        (sortedL st)[j]? = some b → b.2 ≤ a.2) := by
  have hgt : getTopN st n = labelFrom 1 ((sortedL st).take n.toNat) := by
    unfold getTopN
    rw [zrevrange_zero st (n - 1) (by omega), show (n - 1).toNat + 1 = n.toNat by omega]
  have hidx : ∀ i : ℕ, i < min n.toNat st.length →
      (getTopN st n)[i]?
        = ((sortedL st)[i]?).map (fun e => ⟨e.1, decodeScore e.2, (i : ℤ) + 1⟩) := by
    intro i hi
    rw [hgt, labelFrom_getElem?, List.getElem?_take,
      if_pos (by omega : i < n.toNat)]
    cases h : (sortedL st)[i]? with
    | none => simp
    | some a =>
      simp only [Option.map_some']
      congr 1
      simp [add_comm]
  refine ⟨?_, hidx, ?_, fun i j hij a b => sortedL_scores_anti st hij⟩
  · rw [hgt, labelFrom_length, List.length_take, sortedL_length]
  · intro i j hij a b ha hb
    have hjlt : j < min n.toNat st.length := by
      by_contra hc
      rw [hgt, labelFrom_getElem?] at hb
      rw [List.getElem?_take] at hb
      by_cases hjn : j < n.toNat
      · have : st.length ≤ j := by omega
        rw [List.getElem?_eq_none (by rw [sortedL_length]; exact this)] at hb
        simp at hb
      · rw [if_neg hjn] at hb
        simp at hb
    have hilt : i < min n.toNat st.length := lt_of_le_of_lt hij hjlt
    rw [hidx i hilt] at ha
    rw [hidx j hjlt] at hb
    cases hsa : (sortedL st)[i]? with
    | none => rw [hsa] at ha; simp at ha
    | some ea =>
      cases hsb : (sortedL st)[j]? with
      | none => rw [hsb] at hb; simp at hb
      | some eb =>
        rw [hsa] at ha
        rw [hsb] at hb
        simp only [Option.map_some'] at ha hb
        cases ha
        cases hb
        exact decodeScore_mono (sortedL_scores_anti st hij hsa hsb)

/-- C7, witness. -/
theorem c7_topN_witness :
    (getTopN [("a", (5 : ℚ))] 1).length = min (1 : ℤ).toNat [("a", (5 : ℚ))].length :=
  (c7_topN_amended [("a", (5 : ℚ))] 1 (by decide)).1

/-! ### C10: GetPlayerRankRange with non-positive window -/

/-- C10, counterexample: for the rank-1 player and `windowSize = 0` the
derived range is `startRank = 1, endRank = 0`, so the code calls
`ZRevRange(0, -1)` — and redis reads the `-1` as "last element", returning
the ENTIRE leaderboard (2 entries here) instead of the empty list the
claim asserts. -/
theorem c10_windowNonpos_cex :
    (getPlayerRankRange [("a", (2 : ℚ)), ("b", (1 : ℚ))] "a" 0).map List.length
      = some 2 := by decide

/-- C10 (corrected): for `windowSize ≤ 0` the call indeed returns `some []`
(no error, nothing fetched) — but only when the derived
`endRank = max(standardRank - windowSize/2, 1) + windowSize - 1` is still
at least 1; when `endRank ≤ 0` the redis stop index `endRank - 1` is
negative and wraps to the end of the leaderboard, producing a non-empty
result (see the counterexample, where the target has rank 1). -/
theorem c10_windowNonpos_amended (st : LbState) (id : String) (w : ℤ) (hw : w ≤ 0)
    (info : RankInfo) (hinfo : getPlayerRank st id = some info)
    (hend : 1 ≤ max (info.Rank - Int.tdiv w 2) 1 + w - 1) :
    getPlayerRankRange st id w = some [] := by
  unfold getPlayerRankRange
  rw [hinfo]
  dsimp only
  have hempty : zrevrange st (max (info.Rank - Int.tdiv w 2) 1 - 1)
      (max (info.Rank - Int.tdiv w 2) 1 + w - 1 - 1) = [] := by
    unfold zrevrange
    dsimp only
    rw [if_neg (by omega : ¬ max (info.Rank - Int.tdiv w 2) 1 - 1 < 0),
      if_neg (by omega : ¬ max (info.Rank - Int.tdiv w 2) 1 + w - 1 - 1 < 0),
      if_pos (Or.inl (by omega))]
  rw [hempty]
  rfl

/-- C10, witness: the rank-2 player with windowSize 0 gets the empty list. -/
theorem c10_windowNonpos_witness :
    getPlayerRankRange [("a", (5 : ℚ)), ("b", (3 : ℚ))] "b" 0 = some [] :=
  c10_windowNonpos_amended [("a", (5 : ℚ)), ("b", (3 : ℚ))] "b" 0 (by decide)
    ⟨"b", decodeScore (3 : ℚ), 2⟩ rfl (by decide)

/-! ### C6: completeness of GetTopNDense -/

/-- The decoded raw score of a stored entry. -/
abbrev dscore (e : String × ℚ) : ℤ := decodeScore e.2

/-- The (class-based) dense rank of a decoded score value `v` in a state:
one more than the number of DISTINCT decoded scores strictly above `v`. -/
def denseRankVal (st : LbState) (v : ℤ) : ℤ :=
  1 + (((st.map dscore).toFinset.filter (fun w => v < w)).card : ℤ)

lemma denseLoop_zero_ids (l : LbState) (prev rank : ℤ) :
    (denseLoop l prev rank 0).map (fun i => i.PlayerID) = l.map Prod.fst := by
  induction l generalizing prev rank with
  | nil => rfl
  | cons a rest ih =>
    unfold denseLoop
    dsimp only
    rw [if_neg (by intro h; exact absurd h.1 (lt_irrefl 0))]
    simp only [List.map_cons, ih]

/-- Core invariant of the dense-ranking loop: an entry `e` of the remaining
(sorted, all bounded by `prev`) window whose final rank — the running
counter plus the number of distinct scores above `e` among `prev` and the
window — does not exceed the limit IS emitted, with exactly that rank. -/
lemma denseLoop_mem :
    ∀ (l : LbState) (prev rank limit : ℤ), 0 < limit →
      (∀ x ∈ l, dscore x ≤ prev) →
      l.Pairwise (fun x y => dscore y ≤ dscore x) →
      ∀ e ∈ l,
        rank + ((((prev :: l.map dscore).toFinset.filter
          (fun w => dscore e < w)).card : ℤ)) ≤ limit →
        (⟨e.1, dscore e,
          rank + ((((prev :: l.map dscore).toFinset.filter
            (fun w => dscore e < w)).card : ℤ))⟩ : RankInfo)
          ∈ denseLoop l prev rank limit := by
  intro l
  induction l with
  | nil =>
    intro prev rank limit _ _ _ e he
    cases he
  | cons a rest ih =>
    intro prev rank limit hlim hle hsort e he hrank
    rw [List.map_cons] at hrank ⊢
    have hpc := List.pairwise_cons.mp hsort
    have hall : ∀ w ∈ (dscore a :: rest.map dscore).toFinset, w ≤ dscore a := by
      intro w hw
      rw [List.mem_toFinset] at hw
      rcases List.mem_cons.mp hw with rfl | hw'
      · exact le_refl _
      · rw [List.mem_map] at hw'
        obtain ⟨y, hy, rfl⟩ := hw'
        exact hpc.1 y hy
    have hva : dscore a ≤ prev := hle a (List.mem_cons_self a rest)
    have hcard : ∀ v : ℤ, v ≤ dscore a →
        ((((prev :: dscore a :: rest.map dscore).toFinset.filter
          (fun w => v < w)).card : ℤ))
          = (if dscore a < prev then (1 : ℤ) else 0)
            + (((dscore a :: rest.map dscore).toFinset.filter
              (fun w => v < w)).card : ℤ) := by
      intro v hv
      rcases eq_or_lt_of_le hva with heq | hlt
      · rw [List.toFinset_cons (a := prev), Finset.insert_eq_self.mpr (by
          rw [← heq]
          rw [List.mem_toFinset]
          exact List.mem_cons_self _ _)]
        rw [if_neg (by rw [heq]; exact lt_irrefl _)]
        omega
      · have hnotmem : prev ∉ (dscore a :: rest.map dscore).toFinset := by
          intro hc
          exact absurd (hall prev hc) (not_le.mpr hlt)
        rw [List.toFinset_cons (a := prev), Finset.filter_insert,
          if_pos (by omega : v < prev),
          Finset.card_insert_of_not_mem (fun hc => hnotmem (Finset.mem_of_mem_filter _ hc)),
          if_pos hlt]
        push_cast
        ring
    have hzero : (((dscore a :: rest.map dscore).toFinset.filter
        (fun w => dscore a < w)).card) = 0 := by
      rw [Finset.card_eq_zero, Finset.filter_eq_empty_iff]
      intro w hw
      exact not_lt.mpr (hall w hw)
    unfold denseLoop
    dsimp only
    rcases List.mem_cons.mp he with rfl | he'
    · -- e is the head of the window
      have hre : rank + ((((prev :: dscore e :: rest.map dscore).toFinset.filter
          (fun w => dscore e < w)).card : ℤ))
          = (if decodeScore e.2 < prev then rank + 1 else rank) := by
        rw [hcard (dscore e) (le_refl _)]
        have h0 : (((dscore e :: rest.map dscore).toFinset.filter
            (fun w => dscore e < w)).card : ℤ) = 0 := by exact_mod_cast hzero
        rw [h0]
        by_cases hap : dscore e < prev
        · rw [if_pos hap, if_pos hap]
          omega
        · rw [if_neg hap, if_neg hap]
          omega
      rw [if_neg (by
        intro hc
        rw [hre] at hrank
        exact absurd hc.2 (not_lt.mpr hrank))]
      rw [hre]
      exact List.mem_cons_self _ _
    · -- e lies further down the window
      have hvx : dscore e ≤ dscore a := hpc.1 e he'
      have hshift := hcard (dscore e) hvx
      by_cases hap : dscore a < prev
      · rw [if_pos hap] at hshift
        by_cases hbrk : 0 < limit ∧ limit < (if decodeScore a.2 < prev then rank + 1 else rank)
        · exfalso
          rw [if_pos hap] at hbrk
          have hge : (0 : ℤ) ≤ (((dscore a :: rest.map dscore).toFinset.filter
              (fun w => dscore e < w)).card : ℤ) := by positivity
          omega
        · rw [if_neg hbrk]
          refine List.mem_cons.mpr (Or.inr ?_)
          have hmem := ih (decodeScore a.2) (rank + 1) limit hlim hpc.1 hpc.2 e he'
            (by rw [show decodeScore a.2 = dscore a from rfl]; omega)
          rw [show decodeScore a.2 = dscore a from rfl] at hmem
          rw [show rank + ((((prev :: dscore a :: rest.map dscore).toFinset.filter
            (fun w => dscore e < w)).card : ℤ))
            = (rank + 1) + (((dscore a :: rest.map dscore).toFinset.filter
              (fun w => dscore e < w)).card : ℤ) by omega]
          rw [show (if decodeScore a.2 < prev then rank + 1 else rank) = rank + 1 from if_pos hap]
          exact hmem
      · rw [if_neg hap] at hshift
        by_cases hbrk : 0 < limit ∧ limit < (if decodeScore a.2 < prev then rank + 1 else rank)
        · exfalso
          rw [if_neg hap] at hbrk
          have hge : (0 : ℤ) ≤ (((dscore a :: rest.map dscore).toFinset.filter
              (fun w => dscore e < w)).card : ℤ) := by positivity
          omega
        · rw [if_neg hbrk]
          refine List.mem_cons.mpr (Or.inr ?_)
          have hmem := ih (decodeScore a.2) rank limit hlim hpc.1 hpc.2 e he'
            (by rw [show decodeScore a.2 = dscore a from rfl]; omega)
          rw [show decodeScore a.2 = dscore a from rfl] at hmem
          rw [show rank + ((((prev :: dscore a :: rest.map dscore).toFinset.filter
            (fun w => dscore e < w)).card : ℤ))
            = rank + (((dscore a :: rest.map dscore).toFinset.filter
              (fun w => dscore e < w)).card : ℤ) by omega]
          rw [show (if decodeScore a.2 < prev then rank + 1 else rank) = rank from if_neg hap]
          exact hmem

lemma getTopNDense_window (st : LbState) (hlen : st.length ≤ 100) :
    zrevrange st 0 99 = sortedL st := by
  rw [zrevrange_zero st 99 (by omega)]
  apply List.take_of_length_le
  rw [sortedL_length]
  omega

lemma sortedL_dscore_pairwise (st : LbState) :
    (sortedL st).Pairwise (fun x y => dscore y ≤ dscore x) := by
  apply List.Pairwise.imp _ (sortedL_sorted st)
  intro x y hxy
  rcases hxy with h | ⟨h, _⟩
  · exact decodeScore_mono (le_of_lt h)
  · exact decodeScore_mono (le_of_eq h.symm)

lemma denseRankVal_sorted (st : LbState) (v : ℤ) :
    denseRankVal st v
      = 1 + ((((sortedL st).map dscore).toFinset.filter (fun w => v < w)).card : ℤ) := by
  unfold denseRankVal
  rw [List.toFinset_eq_of_perm _ _ (List.Perm.map dscore (sortedL_perm st).symm)]

/-- C6 (corrected): PROVIDED the population fits in the hardcoded 100-entry
window (`ZRevRange(0, 99)`), the claim's content holds: `GetTopNDense(0)`
emits one entry per player (in descending-key order), and for `limit > 0`
every player whose dense rank is at most `limit` is emitted, carrying
exactly its dense rank.  Beyond 100 players the window truncates the
output — see the counterexample. -/
theorem c6_topNDense_amended (st : LbState) (hlen : st.length ≤ 100) :
    (getTopNDense st 0).map (fun i => i.PlayerID) = (sortedL st).map Prod.fst
    ∧ (∀ limit : ℤ, 0 < limit → ∀ e ∈ sortedL st,
        denseRankVal st (dscore e) ≤ limit →
        (⟨e.1, dscore e, denseRankVal st (dscore e)⟩ : RankInfo) ∈ getTopNDense st limit) := by
  have hwin : zrevrange st 0 99 = sortedL st := getTopNDense_window st hlen
  constructor
  · unfold getTopNDense
    rw [hwin]
    cases hs : sortedL st with
    | nil => rfl
    | cons a rest =>
      dsimp only
      simp only [List.map_cons, denseLoop_zero_ids]
  · intro limit hlim e he hrank
    unfold getTopNDense
    rw [hwin]
    have hpair := sortedL_dscore_pairwise st
    cases hs : sortedL st with
    | nil =>
      rw [hs] at he
      cases he
    | cons a rest =>
      rw [hs] at he hpair
      have hpc := List.pairwise_cons.mp hpair
      have hdr : ∀ v : ℤ, denseRankVal st v
          = 1 + (((dscore a :: rest.map dscore).toFinset.filter
              (fun w => v < w)).card : ℤ) := by
        intro v
        rw [denseRankVal_sorted st v, hs, List.map_cons]
      dsimp only
      rcases List.mem_cons.mp he with rfl | he'
      · have h1 : denseRankVal st (dscore e) = 1 := by
          rw [hdr]
          have hz : (((dscore e :: rest.map dscore).toFinset.filter
              (fun w => dscore e < w)).card) = 0 := by
            rw [Finset.card_eq_zero, Finset.filter_eq_empty_iff]
            intro w hw
            rw [List.mem_toFinset] at hw
            rcases List.mem_cons.mp hw with rfl | hw'
            · exact lt_irrefl _
            · rw [List.mem_map] at hw'
              obtain ⟨y, hy, rfl⟩ := hw'
              exact not_lt.mpr (hpc.1 y hy)
          rw [hz]
          norm_num
        rw [h1]
        exact List.mem_cons_self _ _
      · have hmem := denseLoop_mem rest (dscore a) 1 limit hlim hpc.1 hpc.2 e he'
          (by rw [← hdr (dscore e)]; exact hrank)
        rw [hdr (dscore e)]
        exact List.mem_cons.mpr (Or.inr hmem)

lemma getTopNDense_zero_ids (st : LbState) :
    (getTopNDense st 0).map (fun i => i.PlayerID) = (zrevrange st 0 99).map Prod.fst := by
  unfold getTopNDense
  cases h : zrevrange st 0 99 with
  | nil => rfl
  | cons a rest =>
    dsimp only
    simp only [List.map_cons, denseLoop_zero_ids]

/-- A 101-player state (distinct member strings of increasing length, all
with the same stored score). -/
def st101 : LbState :=
  (List.range 101).map (fun i => (String.mk (List.replicate (i + 1) 'a'), (1000000000000 : ℚ)))

/-- C6, counterexample: with 101 players in the index, `GetTopNDense(0)`
does NOT return one entry per player: the hardcoded `ZRevRange(0, 99)`
window yields at most 100 entries, so some player is missing. -/
theorem c6_topNDense_cex :
    ¬ (∀ p ∈ st101.map Prod.fst,
        p ∈ (getTopNDense st101 0).map (fun i => i.PlayerID)) := by
  intro hall
  have hlen101 : st101.length = 101 := by
    unfold st101
    rw [List.length_map, List.length_range]
  have hids := getTopNDense_zero_ids st101
  have hrlen : (zrevrange st101 0 99).length = 100 := by
    rw [zrevrange_zero st101 99 (by omega), List.length_take, sortedL_length, hlen101]
    omega
  have hnd : (st101.map Prod.fst).Nodup := by
    unfold st101
    rw [List.map_map]
    apply List.Nodup.map _ (List.nodup_range 101)
    intro i j hij
    dsimp only [Function.comp] at hij
    have h2 := congrArg (fun s => s.data.length) hij
    simp only [List.length_replicate] at h2
    omega
  have hsub : (st101.map Prod.fst).toFinset
      ⊆ ((getTopNDense st101 0).map (fun i => i.PlayerID)).toFinset := by
    intro p hp
    rw [List.mem_toFinset] at hp ⊢
    exact hall p hp
  have h1 : (st101.map Prod.fst).toFinset.card = 101 := by
    rw [List.toFinset_card_of_nodup hnd, List.length_map, hlen101]
  have h2 : ((getTopNDense st101 0).map (fun i => i.PlayerID)).toFinset.card ≤ 100 := by
    calc ((getTopNDense st101 0).map (fun i => i.PlayerID)).toFinset.card
        ≤ ((getTopNDense st101 0).map (fun i => i.PlayerID)).length :=
          List.toFinset_card_le _
    _ = 100 := by rw [hids, List.length_map, hrlen]
  have := Finset.card_le_card hsub
  omega

/-- C6, witness. -/
theorem c6_topNDense_witness :
    (getTopNDense [("a", (5 : ℚ))] 0).map (fun i => i.PlayerID)
      = (sortedL [("a", (5 : ℚ))]).map Prod.fst :=
  (c6_topNDense_amended [("a", (5 : ℚ))] (by decide)).1

/-! ### C8: window semantics of GetPlayerRankRange -/

lemma zrevrange_pos (st : LbState) (a b : ℤ) (ha : 0 ≤ a) (hab : a ≤ b)
    (hn : a < ((sortedL st).length : ℤ)) :
    zrevrange st a b = ((sortedL st).take (b.toNat + 1)).drop a.toNat := by
  unfold zrevrange
  dsimp only
  rw [if_neg (not_lt.mpr ha), if_neg (not_lt.mpr (le_trans ha hab)),
    if_neg (by push_neg; exact ⟨hab, hn⟩)]

/-- C8 (corrected): the window query behaves as claimed EXCEPT for the
"fewer entries only near the top" clause, which is backwards: clamping at
the top keeps the window at full size (it slides down), while a window
reaching past the BOTTOM of the leaderboard is what truncates the output.
Precisely: a missing player yields the NotFound error; for a present player
with standard rank `r = info.Rank`, `startRank = max(r - windowSize/2, 1)`
and `endRank = startRank + windowSize - 1`, the call returns exactly
`min endRank populationSize - startRank + 1` entries ( `= windowSize` iff
`endRank ≤ populationSize`); entry `i` is the member at 0-based view
position `startRank - 1 + i` labelled with its actual standard rank
`startRank + i`; and the queried player appears at offset `r - startRank`. -/
theorem c8_window_amended :
    (∀ (st : LbState) (id : String) (w : ℤ), getPlayerRank st id = none →
      getPlayerRankRange st id w = none)
    ∧ ∀ (st : LbState) (id : String) (w startR : ℤ), 1 ≤ w →
        ∀ info : RankInfo, getPlayerRank st id = some info →
        startR = max (info.Rank - Int.tdiv w 2) 1 →
        ∃ res : List RankInfo,
          getPlayerRankRange st id w = some res
          ∧ res.length = (min (startR + w - 1) (st.length : ℤ) - startR + 1).toNat
          ∧ (∀ i : ℕ, (i : ℤ) < min (startR + w - 1) (st.length : ℤ) - startR + 1 →
              res[i]? = ((sortedL st)[(startR - 1).toNat + i]?).map
                (fun e => ⟨e.1, decodeScore e.2, startR + (i : ℤ)⟩))
          ∧ (res[(info.Rank - startR).toNat]?.map (fun e => e.PlayerID) = some id) := by
  constructor
  · intro st id w h
    unfold getPlayerRankRange
    rw [h]
  · intro st id w startR hw info hinfo hstart
    obtain ⟨p, cs, hrank, hscore, hinfoeq⟩ := getPlayerRank_some hinfo
    obtain ⟨hp, hpred⟩ := findIdx?_some_spec _ _ p hrank
    have hid : ((sortedL st).get ⟨p, hp⟩).1 = id := of_decide_eq_true hpred
    have hr : info.Rank = (p : ℤ) + 1 := by rw [hinfoeq]
    have hn : ((sortedL st).length : ℤ) = (st.length : ℤ) := by
      rw [sortedL_length]
    have hpn : (p : ℤ) < (st.length : ℤ) := by
      rw [← hn]
      exact_mod_cast hp
    have hstart' : startR = max (info.Rank - w / 2) 1 := by
      rw [hstart, Int.tdiv_eq_ediv (by omega) (by omega)]
    have hstart1 : 1 ≤ startR := by omega
    have hstartr : startR ≤ info.Rank := by omega
    have hrend : info.Rank ≤ startR + w - 1 := by omega
    unfold getPlayerRankRange
    rw [hinfo]
    dsimp only
    rw [← hstart]
    have hslice := zrevrange_pos st (startR - 1) (startR + w - 1 - 1)
      (by omega) (by omega) (by omega)
    rw [hslice]
    refine ⟨_, rfl, ?_, ?_, ?_⟩
    · rw [labelFrom_length, List.length_drop, List.length_take, sortedL_length]
      omega
    · intro i hi
      rw [labelFrom_getElem?, List.getElem?_drop, List.getElem?_take,
        if_pos (by omega : (startR - 1).toNat + i < (startR + w - 1 - 1).toNat + 1)]
    · have hi0 : ((info.Rank - startR).toNat : ℤ) < min (startR + w - 1) (st.length : ℤ)
          - startR + 1 := by omega
      rw [labelFrom_getElem?, List.getElem?_drop, List.getElem?_take,
        if_pos (by omega : (startR - 1).toNat + (info.Rank - startR).toNat
          < (startR + w - 1 - 1).toNat + 1)]
      rw [show (startR - 1).toNat + (info.Rank - startR).toNat = p by omega]
      rw [List.getElem?_eq_getElem hp]
      simp only [Option.map_some']
      rw [show (sortedL st)[p] = (sortedL st).get ⟨p, hp⟩ from rfl, hid]

/-- C8, witness: a missing player errors, and a present rank-1 player with
windowSize 1 gets exactly one entry. -/
theorem c8_window_witness :
    getPlayerRankRange [] "a" 1 = none
    ∧ (getPlayerRankRange [("a", (5 : ℚ))] "a" 1).map List.length = some 1 := by
  constructor
  · exact c8_window_amended.1 [] "a" 1 rfl
  · obtain ⟨res, hres, hlen, _, _⟩ := c8_window_amended.2 [("a", (5 : ℚ))] "a" 1 1
      (by decide) ⟨"a", decodeScore (5 : ℚ), 1⟩ rfl (by decide)
    rw [hres]
    simp only [Option.map_some']
    rw [hlen]
    decide

/-- The §8 scenario population: seven players with raw scores
`{100, 100, 95, 120, 90, 89, 105}` at distinct timestamps (keys written out
as the combined float64 values the code stores). -/
def st7 : LbState :=
  [("playerA", (100999999999900 : ℚ)), ("playerB", (100999999999950 : ℚ)),
   ("playerC", (95999999999920 : ℚ)), ("playerD", (120999999999940 : ℚ)),
   ("playerE", (90999999999960 : ℚ)), ("playerF", (89999999999980 : ℚ)),
   ("playerG", (105999999999970 : ℚ))]

/-- C8, counterexample: on the §8 scenario population, playerF holds
standard rank 7 — NOT within `windowSize/2 = 2` of the top — yet
`GetPlayerRankRange("playerF", 4)` returns only 3 entries (ranks 5..7), not
4: the window `[5, 8]` runs past the bottom of the 7-player leaderboard.
This refutes "returns exactly windowSize entries, or fewer only when the
player is within windowSize/2 of the top". -/
theorem c8_window_cex :
    (getPlayerRankRange st7 "playerF" 4).map List.length = some 3
    ∧ (getPlayerRank st7 "playerF").map (fun i => i.Rank) = some 7 := by
  constructor
  · decide
  · decide
